import Mathlib

/-!
Verification of the template data entity, its equality / same-processing
comparators, the provenance-marker attachment, construction-time name
validation and the `group_templates` grouping algorithm of
`eqcorrscan/core/match_filter/template.py`.

Scalar processing parameters (Python floats) are embedded as `Option ℚ`
(`filt_order`, a Python int, as `Option ℤ`); absent values (`None`) are
`Option.none`.  Waveform times, sampling rates and sample values are
likewise embedded as rationals / integers.
-/

namespace EqcorrscanTemplate

/-- The per-channel metadata of an obspy `Trace.stats`; exactly the fields
read by `Template.__eq__` and `Stream.sort`. -/
structure TraceStats where
  network : String
  station : String
  location : String
  channel : String
  starttime : ℚ
  endtime : ℚ
  sampling_rate : ℚ
  delta : ℚ
  npts : ℕ
  calib : ℚ
  deriving DecidableEq

/-- A single-channel waveform: obspy `Trace` (stats plus sample data). -/
structure Trace where
  stats : TraceStats
  data : List ℤ
  deriving DecidableEq

/-- Strict lexicographic order on character lists by code point
(Python string comparison). -/
def chListLt : List Char → List Char → Bool
  | [], [] => false
  | [], _ :: _ => true
  | _ :: _, [] => false
  | a :: as, b :: bs =>
      if a.toNat < b.toNat then true
      else if b.toNat < a.toNat then false
      else chListLt as bs

/-- Python string `<`. -/
def strLt (a b : String) : Bool := chListLt a.data b.data

/-- Lexicographic less-or-equal on the default obspy `Stream.sort` keys
`['network', 'station', 'location', 'channel', 'starttime', 'endtime']`. -/
def traceLe (a b : Trace) : Bool :=
  if a.stats.network != b.stats.network then strLt a.stats.network b.stats.network
  else if a.stats.station != b.stats.station then strLt a.stats.station b.stats.station
  else if a.stats.location != b.stats.location then strLt a.stats.location b.stats.location
  else if a.stats.channel != b.stats.channel then strLt a.stats.channel b.stats.channel
  else if a.stats.starttime != b.stats.starttime then a.stats.starttime.blt b.stats.starttime
  else !(b.stats.endtime.blt a.stats.endtime)

/-- Insert a trace after all traces that compare `traceLe` to it
(stable insertion, matching Python's stable `list.sort`). -/
def insertTrace (t : Trace) : List Trace → List Trace
  | [] => [t]
  | x :: xs => if traceLe x t then x :: insertTrace t xs else t :: x :: xs

/-- obspy `Stream.sort()` with its default keys (a stable sort). -/
def sortStream (l : List Trace) : List Trace :=
  l.foldl (fun acc t => insertTrace t acc) []

/-- The per-pair trace comparison done inside `Template.__eq__`:
sample data equal (`np.array_equal`) and the stats entries
`network, station, channel, location, starttime, endtime, sampling_rate,
delta, npts, calib` all equal. -/
def tracesMatch (a b : Trace) : Bool :=
  (a.data == b.data) &&
  (a.stats.network == b.stats.network) && (a.stats.station == b.stats.station) &&
  (a.stats.channel == b.stats.channel) && (a.stats.location == b.stats.location) &&
  (a.stats.starttime == b.stats.starttime) && (a.stats.endtime == b.stats.endtime) &&
  (a.stats.sampling_rate == b.stats.sampling_rate) && (a.stats.delta == b.stats.delta) &&
  (a.stats.npts == b.stats.npts) && (a.stats.calib == b.stats.calib)

/-- Pairwise comparison of two (sorted) streams with Python `zip`
semantics: the comparison stops at the end of the shorter stream and
leftover traces of the longer stream are never examined. -/
def streamsMatch : List Trace → List Trace → Bool
  | [], _ => true
  | _ :: _, [] => true
  | a :: as, b :: bs => tracesMatch a b && streamsMatch as bs

/-- obspy `CreationInfo` (the fields set by `Template.__init__`). -/
structure CreationInfo where
  agency : String
  author : String
  deriving DecidableEq

/-- obspy `Comment` (the fields set by `Template.__init__`). -/
structure Comment where
  text : String
  creation_info : CreationInfo
  deriving DecidableEq

/-- obspy `Event`: a non-deterministically regenerated resource
identifier, the comment list manipulated by `Template.__init__`, and the
remaining event content (origins, picks, ...) abstracted into one field. -/
structure Event where
  resource_id : ℕ
  comments : List Comment
  content : List ℚ
  deriving DecidableEq

/-- Modelled from the spec: `_test_event_similarity`
(`eqcorrscan.core.match_filter.helpers`, not under `src/`) compares two
events ignoring their resource identifiers but comparing all other event
content; the optional shallow mode (which compares fewer fields) is not
exercised by `Template.__eq__`'s default call and is not modelled. -/
def eventSimilar (a b : Event) : Bool :=
  (a.comments == b.comments) && (a.content == b.content)

/-- The value of the `st` attribute: `None`, a single `Trace`, or a
`Stream` (list of traces).  `Template.__eq__` branches on whether each
side `isinstance(..., Stream)`. -/
inductive Waveform where
  | none : Waveform
  | trace (tr : Trace) : Waveform
  | stream (trs : List Trace) : Waveform
  deriving DecidableEq

/-- The `Template` entity: the nine attributes set by
`Template.__init__`, in their `__dict__` insertion order. -/
structure Template where
  name : Option String
  st : Waveform
  lowcut : Option ℚ
  highcut : Option ℚ
  samp_rate : Option ℚ
  filt_order : Option ℤ
  process_length : Option ℚ
  prepick : Option ℚ
  event : Option Event
  deriving DecidableEq

namespace Template

/-- The `st` clause of `Template.__eq__`: when both sides are `Stream`s
the sorted streams are compared pairwise (with `zip` truncation); when
exactly one side is a `Stream` the templates are unequal; when neither
side is a `Stream` (both `None`, a `Trace` on either side, ...) the
attribute is skipped entirely. -/
def stField : Waveform → Waveform → Bool
  | .stream x, .stream y => streamsMatch (sortStream x) (sortStream y)
  | .stream _, _ => false
  | _, .stream _ => false
  | _, _ => true

/-- The `event` clause of `Template.__eq__`: both events present are
compared with `_test_event_similarity`; exactly one present makes the
templates unequal; neither present skips the attribute. -/
def eventField : Option Event → Option Event → Bool
  | some e1, some e2 => eventSimilar e1 e2
  | some _, Option.none => false
  | Option.none, some _ => false
  | Option.none, Option.none => true

/-- Embedding of `Template.__eq__`: iterates over all nine attributes; `st` and
`event` by their dedicated clauses, every other attribute by plain
equality. -/
def eq (a b : Template) : Bool :=
  (a.name == b.name) && stField a.st b.st &&
  (a.lowcut == b.lowcut) && (a.highcut == b.highcut) &&
  (a.samp_rate == b.samp_rate) && (a.filt_order == b.filt_order) &&
  (a.process_length == b.process_length) && (a.prepick == b.prepick) &&
  eventField a.event b.event

/-- Embedding of `Template.copy`: `copy.deepcopy` returns an independent value equal
to the original. -/
def copy (t : Template) : Template := t

/-- Embedding of `Template.same_processing`: compares every attribute except
`name`, `st`, `prepick`, `event` (and the never-present
`template_info`), i.e. exactly `lowcut`, `highcut`, `samp_rate`,
`filt_order`, `process_length`. -/
def same_processing (a b : Template) : Bool :=
  (a.lowcut == b.lowcut) && (a.highcut == b.highcut) &&
  (a.samp_rate == b.samp_rate) && (a.filt_order == b.filt_order) &&
  (a.process_length == b.process_length)

end Template

/-- The tuple of processing parameters compared by `same_processing`. -/
def procKey (t : Template) : Option ℚ × Option ℚ × Option ℚ × Option ℤ × Option ℚ :=
  (t.lowcut, t.highcut, t.samp_rate, t.filt_order, t.process_length)

/-- A character admitted by the name regex character class
`[-A-Za-z_0-9]`. -/
def isNameChar (c : Char) : Bool :=
  c = '-' || ('A' ≤ c && c ≤ 'Z') || ('a' ≤ c && c ≤ 'z') || c = '_' || ('0' ≤ c && c ≤ '9')

/-- Whether `re.match(r"^[-A-Za-z_0-9]+$", s)` succeeds.  Python's `$`
also matches just before one trailing newline, so a single trailing
`'\n'` is tolerated. -/
def validName (s : String) : Bool :=
  let cs := s.data
  let core := if cs.getLast? = some '\n' then cs.dropLast else cs
  !core.isEmpty && core.all isNameChar

/-- The provenance marker text `"eqcorrscan_template_" + temp_name`,
where `temp_name` falls back to `"unnamed"` for an unset name. -/
def markerText (name : Option String) : String :=
  "eqcorrscan_template_" ++ name.getD "unnamed"

/-- The marker-attachment step of `Template.__init__` (lines 99-106):
append a provenance `Comment` (agency `eqcorrscan`, author the current
user) unless a comment with the marker text is already present.  The
source mutates the caller's event in place; here the updated event value
is returned. -/
def attachMarker (name : Option String) (user : String) (ev : Event) : Event :=
  if (ev.comments.map Comment.text).contains (markerText name) then ev
  else { ev with comments :=
          ev.comments ++ [⟨markerText name, ⟨"eqcorrscan", user⟩⟩] }

/-- Iterate `attachMarker` `n` times (repeatedly
constructing templates around the same event object). -/
def attachIter (name : Option String) (user : String) : ℕ → Event → Event
  | 0, ev => ev
  | n + 1, ev => attachMarker name user (attachIter name user n ev)

/-- The errors `Template.__init__` can raise: `ValueError` for an
invalid name, `MatchFilterError` for mismatched sampling rates. -/
inductive TemplateError where
  | invalidName : TemplateError
  | samplingMismatch : TemplateError
  | methodNotImplemented : TemplateError
  deriving DecidableEq

/-- The sampling-rate guard of `Template.__init__`: fires when `st` is a
truthy (non-empty) `Stream`, `samp_rate` is set, and some trace's rate
differs (an empty stream is falsy and skips the loop; a `Trace`-valued
`st` cannot be iterated by the source's `for tr in st` loop and is
outside the modelled behaviour). -/
def sampleRateMismatch (st : Waveform) (samp_rate : Option ℚ) : Bool :=
  match st, samp_rate with
  | .stream trs, some r => !trs.all (fun tr => tr.stats.sampling_rate == r)
  | _, _ => false

/-- Embedding of `Template.__init__`.  Raises `invalidName` when a set name fails the
regex; raises `samplingMismatch` on a sampling-rate disagreement;
otherwise attaches the provenance marker to a present event and stores
the attributes.  The source mutates the caller's event in place; the
second component of the result is the caller's event object after the
call (the very value the template stores). -/
def Template.init (name : Option String) (st : Waveform)
    (lowcut highcut samp_rate : Option ℚ) (filt_order : Option ℤ)
    (process_length prepick : Option ℚ) (event : Option Event)
    (user : String) : Except TemplateError (Template × Option Event) :=
  if name.any (fun s => !validName s) then .error .invalidName
  else if sampleRateMismatch st samp_rate then .error .samplingMismatch
  else
    let ev' := event.map (attachMarker name user)
    .ok (⟨name, st, lowcut, highcut, samp_rate, filt_order, process_length, prepick, ev'⟩, ev')

/-- The data-cleaning predicate of `Template.construct`: a trace whose
data are zero when downcast to float16 is dropped (the downcast is
approximated by an exact zero test on the integer samples). -/
def dataZero (tr : Trace) : Bool :=
  tr.data.all (fun x => x == 0)

/-- Python `list.remove`: delete the first element equal to `x`. -/
def pyRemoveFirst (x : Trace) : List Trace → List Trace
  | [] => []
  | y :: ys => if y == x then ys else y :: pyRemoveFirst x ys

theorem length_pyRemoveFirst_lt (x : Trace) (l : List Trace) (hx : x ∈ l) :
    (pyRemoveFirst x l).length < l.length := by
  induction l with
  | nil => cases hx
  | cons y ys ih =>
      by_cases h : y == x
      · simp [pyRemoveFirst, h]
      · have hxs : x ∈ ys := by
          cases hx with
          | head => simp at h
          | tail _ hmem => exact hmem
        simpa [pyRemoveFirst, h] using Nat.succ_lt_succ (ih hxs)

/-- The `for tr in st: ... st.remove(tr)` loop of `Template.construct`:
the loop index advances every iteration even when a removal shifts the
list, so the element following a removed trace is skipped. -/
def zeroLoop (l : List Trace) (i : ℕ) : List Trace :=
  if h : i < l.length then
    if dataZero (l.get ⟨i, h⟩) then zeroLoop (pyRemoveFirst (l.get ⟨i, h⟩) l) (i + 1)
    else zeroLoop l (i + 1)
  else l
  termination_by l.length - i
  decreasing_by
    · have := length_pyRemoveFirst_lt (l.get ⟨i, h⟩) l (l.get_mem i h)
      omega
    · omega

/-- The trace-removal pass of `Template.construct` over the stream
returned by `template_gen`. -/
def removeZeroTraces (l : List Trace) : List Trace :=
  zeroLoop l 0

/-- The methods `Template.construct` rejects with `NotImplementedError`. -/
def unsupportedMethods : List String :=
  ["from_meta_file", "from_seishub", "from_client", "multi_template_gen"]

/-- Embedding of `Template.construct`: rejects collection-level methods, otherwise
builds the template from the output of the external collaborator
`eqcorrscan.core.template_gen.template_gen` (outside this module);
`genSt`, `genEvent` and `genProcLen` stand for `streams[0]`, `events[0]`
and `process_lengths[0]` of that call.  The caller-supplied `name` is
stored without any validation. -/
def Template.construct (t : Template) (method : String) (name : String)
    (lowcut highcut samp_rate : Option ℚ) (filt_order : Option ℤ)
    (prepick : Option ℚ) (genSt : List Trace) (genEvent : Event)
    (genProcLen : ℚ) : Except TemplateError Template :=
  if unsupportedMethods.contains method then .error .methodNotImplemented
  else .ok { t with
    name := some name
    st := .stream (removeZeroTraces genSt)
    lowcut := lowcut
    highcut := highcut
    filt_order := filt_order
    samp_rate := samp_rate
    process_length := some genProcLen
    prepick := prepick
    event := some genEvent }

/-- The group built for an unskipped master inside `group_templates`:
the master followed by every input template that is
`same_processing`-equal to and not `__eq__`-equal to the master, in
input order. -/
def mkGroup (all : List Template) (m : Template) : List Template :=
  m :: all.filter (fun s => m.same_processing s && !(Template.eq m s))

/-- The membership test `master in group` (CPython compares
`element == master` for each element). -/
def inGroup (g : List Template) (m : Template) : Bool :=
  g.any (fun x => Template.eq x m)

/-- The master loop of `group_templates`: each input template in turn is
skipped when it already appears (by `__eq__`) in a built group, and
otherwise contributes `mkGroup`. -/
def groupLoop (all : List Template) : List Template → List (List Template) → List (List Template)
  | [], groups => groups
  | master :: rest, groups =>
      if groups.any (fun g => inGroup g master) then groupLoop all rest groups
      else groupLoop all rest (groups ++ [mkGroup all master])

/-- Embedding of `group_templates`.  The final `for group in template_groups: if
len(group) == 0: template_groups.remove(group)` pass is modelled as a
filter; every built group starts with its master, so no group is ever
empty and removal-while-iterating and filtering coincide. -/
def group_templates (templates : List Template) : List (List Template) :=
  (groupLoop templates templates []).filter (fun g => !(g.length == 0))

/-- The list of masters selected by the master loop (a proof-side
companion of `groupLoop`). -/
def selectMasters (all : List Template) : List Template → List (List Template) → List Template
  | [], _ => []
  | master :: rest, groups =>
      if groups.any (fun g => inGroup g master) then selectMasters all rest groups
      else master :: selectMasters all rest (groups ++ [mkGroup all master])

/-- Helper for `firstOccKeys`: drop every key already in `seen` or seen
earlier in the traversal. -/
def firstOccKeysAux {α : Type} [DecidableEq α] : List α → List α → List α
  | [], _ => []
  | k :: ks, seen =>
      if k ∈ seen then firstOccKeysAux ks seen
      else k :: firstOccKeysAux ks (k :: seen)

/-- The keys of a list with later duplicates removed (first-encounter
order), describing the order in which grouping masters appear. -/
def firstOccKeys {α : Type} [DecidableEq α] (l : List α) : List α :=
  firstOccKeysAux l []

/-- Pairwise full distinctness of an input collection: no two of its
templates are `__eq__`-equal. -/
@[reducible]
def pairwiseDistinct (ts : List Template) : Prop :=
  ts.Pairwise (fun a b => Template.eq a b = false)

theorem beqComm {α : Type} [BEq α] [LawfulBEq α] (a b : α) : (a == b) = (b == a) := by
  by_cases h : a = b
  · subst h; rfl
  · rw [beq_eq_false_iff_ne.mpr h, beq_eq_false_iff_ne.mpr (Ne.symm h)]

theorem tracesMatch_iff (a b : Trace) : tracesMatch a b = true ↔ a = b := by
  obtain ⟨⟨n1, s1, l1, c1, t1, e1, r1, d1, p1, k1⟩, da⟩ := a
  obtain ⟨⟨n2, s2, l2, c2, t2, e2, r2, d2, p2, k2⟩, db⟩ := b
  simp only [tracesMatch, Bool.and_eq_true, beq_iff_eq, Trace.mk.injEq, TraceStats.mk.injEq]
  tauto

theorem tracesMatch_refl (a : Trace) : tracesMatch a a = true :=
  (tracesMatch_iff a a).mpr rfl

theorem tracesMatch_symm (a b : Trace) : tracesMatch a b = tracesMatch b a := by
  rw [Bool.eq_iff_iff, tracesMatch_iff, tracesMatch_iff]
  exact eq_comm

theorem streamsMatch_refl (l : List Trace) : streamsMatch l l = true := by
  induction l with
  | nil => rfl
  | cons a as ih => simp [streamsMatch, tracesMatch_refl, ih]

theorem streamsMatch_symm (xs : List Trace) : ∀ ys, streamsMatch xs ys = streamsMatch ys xs := by
  induction xs with
  | nil => intro ys; cases ys <;> rfl
  | cons a as ih =>
      intro ys
      cases ys with
      | nil => rfl
      | cons b bs => simp [streamsMatch, tracesMatch_symm a b, ih bs]

theorem eventSimilar_refl (e : Event) : eventSimilar e e = true := by
  simp [eventSimilar]

theorem eventSimilar_symm (a b : Event) : eventSimilar a b = eventSimilar b a := by
  simp only [eventSimilar]
  rw [beqComm a.comments b.comments, beqComm a.content b.content]

namespace Template

theorem stField_refl (w : Waveform) : stField w w = true := by
  cases w with
  | none => rfl
  | trace tr => rfl
  | stream trs => simpa [stField] using streamsMatch_refl (sortStream trs)

theorem stField_symm (v w : Waveform) : stField v w = stField w v := by
  cases v <;> cases w <;> simp [stField, streamsMatch_symm]

theorem eventField_refl (e : Option Event) : eventField e e = true := by
  cases e with
  | none => rfl
  | some ev => simpa [eventField] using eventSimilar_refl ev

theorem eventField_symm (d e : Option Event) : eventField d e = eventField e d := by
  cases d <;> cases e <;> simp [eventField, eventSimilar_symm]

theorem eq_refl (t : Template) : Template.eq t t = true := by
  simp [Template.eq, stField_refl, eventField_refl]

theorem eq_symm (a b : Template) : Template.eq a b = Template.eq b a := by
  simp only [Template.eq]
  rw [beqComm a.name b.name, stField_symm a.st b.st, beqComm a.lowcut b.lowcut,
    beqComm a.highcut b.highcut, beqComm a.samp_rate b.samp_rate,
    beqComm a.filt_order b.filt_order, beqComm a.process_length b.process_length,
    beqComm a.prepick b.prepick, eventField_symm a.event b.event]

theorem same_processing_true_iff (a b : Template) :
    a.same_processing b = true ↔ procKey a = procKey b := by
  simp only [same_processing, Bool.and_eq_true, beq_iff_eq, procKey, Prod.mk.injEq]
  tauto

theorem same_processing_false_iff (a b : Template) :
    a.same_processing b = false ↔ procKey a ≠ procKey b := by
  rw [← Bool.not_eq_true, not_iff_not]
  exact same_processing_true_iff a b

theorem same_processing_refl (a : Template) : a.same_processing a = true :=
  (same_processing_true_iff a a).mpr rfl

theorem same_processing_symm (a b : Template) : a.same_processing b = b.same_processing a := by
  rw [Bool.eq_iff_iff, same_processing_true_iff, same_processing_true_iff]
  exact eq_comm

theorem eq_implies_procKey {a b : Template} (h : Template.eq a b = true) :
    procKey a = procKey b := by
  simp only [Template.eq, Bool.and_eq_true, beq_iff_eq] at h
  simp only [procKey, Prod.mk.injEq]
  tauto

theorem eq_false_of_procKey_ne {a b : Template} (h : procKey a ≠ procKey b) :
    Template.eq a b = false := by
  cases heq : Template.eq a b with
  | false => rfl
  | true => exact absurd (eq_implies_procKey heq) h

end Template

theorem mem_mkGroup_key {all : List Template} {m x : Template} (hx : x ∈ mkGroup all m) :
    procKey x = procKey m := by
  cases hx with
  | head => rfl
  | tail _ hmem =>
      have := (List.mem_filter.mp hmem).2
      simp only [Bool.and_eq_true] at this
      exact ((Template.same_processing_true_iff m x).mp this.1).symm

theorem mkGroup_ne_nil (all : List Template) (m : Template) : mkGroup all m ≠ [] := by
  simp [mkGroup]

/-- The master loop is the accumulated groups followed by one `mkGroup`
per selected master. -/
theorem groupLoop_eq_selectMasters (all : List Template) :
    ∀ (ms : List Template) (acc : List (List Template)),
      groupLoop all ms acc = acc ++ (selectMasters all ms acc).map (mkGroup all) := by
  intro ms
  induction ms with
  | nil => intro acc; simp [groupLoop, selectMasters]
  | cons m rest ih =>
      intro acc
      by_cases h : (acc.any (fun g => inGroup g m)) = true
      · simp [groupLoop, selectMasters, h, ih]
      · simp only [Bool.not_eq_true] at h
        simp [groupLoop, selectMasters, h, ih]

/-- Rewriting `group_templates` in terms of the selected masters (the final
empty-group filter never removes anything since every group starts with
its master). -/
theorem group_templates_eq_masters (ts : List Template) :
    group_templates ts = (selectMasters ts ts []).map (mkGroup ts) := by
  rw [group_templates, groupLoop_eq_selectMasters, List.nil_append]
  rw [List.filter_eq_self]
  intro g hg
  obtain ⟨m, _, rfl⟩ := List.mem_map.mp hg
  simp [mkGroup]

/-- Every selected master is drawn from the iterated list. -/
theorem selectMasters_subset (all : List Template) :
    ∀ (ms : List Template) (acc : List (List Template)) (m : Template),
      m ∈ selectMasters all ms acc → m ∈ ms := by
  intro ms
  induction ms with
  | nil => intro acc m h; simp [selectMasters] at h
  | cons x rest ih =>
      intro acc m h
      by_cases hx : (acc.any (fun g => inGroup g x)) = true
      · rw [selectMasters, if_pos hx] at h
        exact List.mem_cons_of_mem x (ih acc m h)
      · rw [selectMasters, if_neg hx] at h
        cases h with
        | head => exact List.mem_cons_self x rest
        | tail _ hmem => exact List.mem_cons_of_mem x (ih _ m hmem)

/-- A selected master never `__eq__`-equals a member of a group that was
already present when the loop reached it. -/
theorem selectMasters_not_in_acc (all : List Template) :
    ∀ (ms : List Template) (acc : List (List Template)) (m : Template),
      m ∈ selectMasters all ms acc →
      ∀ g ∈ acc, ∀ x ∈ g, Template.eq x m = false := by
  intro ms
  induction ms with
  | nil => intro acc m h; simp [selectMasters] at h
  | cons y rest ih =>
      intro acc m h g hg x hx
      by_cases hy : (acc.any (fun g => inGroup g y)) = true
      · rw [selectMasters, if_pos hy] at h
        exact ih acc m h g hg x hx
      · rw [selectMasters, if_neg hy] at h
        cases h with
        | head =>
            by_contra hne
            rw [Bool.not_eq_false] at hne
            refine hy ?_
            simp only [List.any_eq_true]
            exact ⟨g, hg, by simp only [inGroup, List.any_eq_true]; exact ⟨x, hx, hne⟩⟩
        | tail _ hmem =>
            exact ih _ m hmem g (List.mem_append_left _ hg) x hx

/-- Two distinct masters are never `same_processing`-equal: a later
master with the same processing key would have been found (by `__eq__`)
inside the earlier master's group and skipped. -/
theorem selectMasters_pairwise_key (all : List Template) :
    ∀ (ms : List Template) (acc : List (List Template)), (∀ x ∈ ms, x ∈ all) →
      (selectMasters all ms acc).Pairwise (fun a b => procKey a ≠ procKey b) := by
  intro ms
  induction ms with
  | nil => intro acc _; simp [selectMasters]
  | cons m rest ih =>
      intro acc hsub
      have hrest : ∀ x ∈ rest, x ∈ all := fun x hx => hsub x (List.mem_cons_of_mem m hx)
      by_cases hm : (acc.any (fun g => inGroup g m)) = true
      · rw [selectMasters, if_pos hm]
        exact ih acc hrest
      · rw [selectMasters, if_neg hm]
        refine List.Pairwise.cons ?_ (ih _ hrest)
        intro m' hm' hk
        have hgrp : mkGroup all m ∈ acc ++ [mkGroup all m] :=
          List.mem_append_right _ (List.mem_singleton_self _)
        have h2 : ∀ x ∈ mkGroup all m, Template.eq x m' = false :=
          fun x hx => selectMasters_not_in_acc all rest _ m' hm' _ hgrp x hx
        have hEqmm : Template.eq m m' = false := h2 m (List.mem_cons_self _ _)
        have hmem' : m' ∈ mkGroup all m := by
          refine List.mem_cons_of_mem m (List.mem_filter.mpr ?_)
          refine ⟨hrest m' (selectMasters_subset all rest _ m' hm'), ?_⟩
          simp [Template.same_processing_true_iff, hk, hEqmm]
        simpa [Template.eq_refl] using h2 m' hmem'

/-- Skipping an initial segment whose every element already appears (by
`__eq__`) in an accumulated group. -/
theorem selectMasters_skip_seg (all : List Template) :
    ∀ (s ms : List Template) (acc : List (List Template)),
      (∀ x ∈ s, (acc.any (fun g => inGroup g x)) = true) →
      selectMasters all (s ++ ms) acc = selectMasters all ms acc := by
  intro s
  induction s with
  | nil => intro ms acc _; rfl
  | cons x s' ih =>
      intro ms acc hall
      have hx : (acc.any (fun g => inGroup g x)) = true := hall x (List.mem_cons_self _ _)
      rw [List.cons_append, selectMasters, if_pos hx]
      exact ih ms acc (fun y hy => hall y (List.mem_cons_of_mem x hy))

/-- Filtering the flattened group list for a master's slaves gives the
same result as filtering the original input: only the master's own group
contributes, and there the filter is idempotent. -/
theorem filter_flatten_groups (ts : List Template) :
    ∀ (M : List Template), M.Pairwise (fun a b => procKey a ≠ procKey b) →
      ∀ m ∈ M,
        ((M.map (mkGroup ts)).flatten).filter
            (fun s => m.same_processing s && !(Template.eq m s)) =
          ts.filter (fun s => m.same_processing s && !(Template.eq m s)) := by
  intro M
  induction M with
  | nil => intro _ m hm; simp at hm
  | cons m' M' ih =>
      intro hpair m hm
      have hhead : ∀ b ∈ M', procKey m' ≠ procKey b :=
        fun b hb => List.rel_of_pairwise_cons hpair hb
      have hpair' : M'.Pairwise (fun a b => procKey a ≠ procKey b) := hpair.of_cons
      rw [List.map_cons, List.flatten_cons, List.filter_append]
      rcases List.mem_cons.mp hm with rfl | hm'
      · have hfirst :
            (mkGroup ts m).filter (fun s => m.same_processing s && !(Template.eq m s)) =
              ts.filter (fun s => m.same_processing s && !(Template.eq m s)) := by
          rw [mkGroup, List.filter_cons]
          simp only [Template.same_processing_refl, Template.eq_refl, Bool.not_true,
            Bool.and_false, Bool.false_eq_true, if_false]
          rw [List.filter_filter]
          exact List.filter_congr (fun x _ => Bool.and_self _)
        have hsecond :
            ((M'.map (mkGroup ts)).flatten).filter
                (fun s => m.same_processing s && !(Template.eq m s)) = [] := by
          rw [List.filter_eq_nil_iff]
          intro x hx
          obtain ⟨g, hg, hxg⟩ := List.mem_flatten.mp hx
          obtain ⟨b, hb, rfl⟩ := List.mem_map.mp hg
          have hkey : procKey x = procKey b := mem_mkGroup_key hxg
          have hne : procKey m ≠ procKey x := by
            rw [hkey]; exact hhead b hb
          simp [(Template.same_processing_false_iff m x).mpr hne]
        rw [hfirst, hsecond, List.append_nil]
      · have hfirst :
            (mkGroup ts m').filter (fun s => m.same_processing s && !(Template.eq m s)) = [] := by
          rw [List.filter_eq_nil_iff]
          intro x hx
          have hkey : procKey x = procKey m' := mem_mkGroup_key hx
          have hne : procKey m ≠ procKey x := by
            rw [hkey]; exact fun hc => hhead m hm' hc.symm
          simp [(Template.same_processing_false_iff m x).mpr hne]
        rw [hfirst, List.nil_append]
        exact ih hpair' m hm'

/-- Rerunning the master loop on the flattened output of a previous run
reselects exactly the same masters. -/
theorem selectMasters_refold (flat ts : List Template) :
    ∀ (Mr : List Template) (done : List (List Template)),
      (∀ m ∈ Mr, flat.filter (fun s => m.same_processing s && !(Template.eq m s)) =
        ts.filter (fun s => m.same_processing s && !(Template.eq m s))) →
      (∀ m ∈ Mr, ∀ g ∈ done, ∀ x ∈ g, procKey x ≠ procKey m) →
      Mr.Pairwise (fun a b => procKey a ≠ procKey b) →
      selectMasters flat ((Mr.map (mkGroup ts)).flatten) done = Mr := by
  intro Mr
  induction Mr with
  | nil => intro done _ _ _; rfl
  | cons m Mr' ih =>
      intro done hfilter hdone hpair
      have hhead : ∀ b ∈ Mr', procKey m ≠ procKey b :=
        fun b hb => List.rel_of_pairwise_cons hpair hb
      have hskip : (done.any (fun g => inGroup g m)) = false := by
        rw [List.any_eq_false]
        intro g hg hcontra
        rw [inGroup, List.any_eq_true] at hcontra
        obtain ⟨x, hx, heq⟩ := hcontra
        exact hdone m (List.mem_cons_self _ _) g hg x hx (Template.eq_implies_procKey heq)
      have hmk : mkGroup flat m = mkGroup ts m := by
        rw [mkGroup, mkGroup, hfilter m (List.mem_cons_self _ _)]
      rw [List.map_cons, List.flatten_cons, mkGroup, List.cons_append, selectMasters,
        if_neg (by simp [hskip])]
      have hseg :
          selectMasters flat
            (ts.filter (fun s => m.same_processing s && !(Template.eq m s)) ++
              (Mr'.map (mkGroup ts)).flatten)
            (done ++ [mkGroup flat m]) =
          selectMasters flat ((Mr'.map (mkGroup ts)).flatten) (done ++ [mkGroup flat m]) := by
        refine selectMasters_skip_seg flat _ _ _ ?_
        intro x hx
        rw [List.any_eq_true]
        refine ⟨mkGroup flat m, List.mem_append_right _ (List.mem_singleton_self _), ?_⟩
        rw [inGroup, List.any_eq_true]
        refine ⟨x, ?_, Template.eq_refl x⟩
        rw [hmk, mkGroup]
        exact List.mem_cons_of_mem m hx
      rw [hseg]
      congr 1
      refine ih (done ++ [mkGroup flat m]) ?_ ?_ hpair.of_cons
      · intro m' hm'
        exact hfilter m' (List.mem_cons_of_mem m hm')
      · intro m' hm' g hg x hx
        rcases List.mem_append.mp hg with hgd | hgnew
        · exact hdone m' (List.mem_cons_of_mem m hm') g hgd x hx
        · rw [List.mem_singleton] at hgnew
          subst hgnew
          rw [hmk] at hx
          rw [mem_mkGroup_key hx]
          exact hhead m' hm'

/-- Claim C8's core: regrouping the concatenation of all groups of a
previous grouping reproduces exactly the same group list. -/
theorem group_templates_idem (ts : List Template) :
    group_templates ((group_templates ts).flatten) = group_templates ts := by
  have hM : (selectMasters ts ts []).Pairwise (fun a b => procKey a ≠ procKey b) :=
    selectMasters_pairwise_key ts ts [] (fun x hx => hx)
  have hfilter := filter_flatten_groups ts (selectMasters ts ts []) hM
  rw [group_templates_eq_masters ts]
  have hsel :
      selectMasters ((((selectMasters ts ts []).map (mkGroup ts)).flatten))
        (((selectMasters ts ts []).map (mkGroup ts)).flatten) [] = selectMasters ts ts [] :=
    selectMasters_refold _ ts (selectMasters ts ts []) [] hfilter (by simp) hM
  rw [group_templates_eq_masters, hsel]
  refine List.map_congr_left ?_
  intro m hm
  rw [mkGroup, mkGroup, hfilter m hm]

section FirstOccKeys

variable {α : Type} [DecidableEq α]

theorem mem_firstOccKeysAux (a : α) :
    ∀ (l seen : List α), a ∈ firstOccKeysAux l seen ↔ a ∈ l ∧ a ∉ seen := by
  intro l
  induction l with
  | nil => intro seen; simp [firstOccKeysAux]
  | cons k ks ih =>
      intro seen
      by_cases hk : k ∈ seen
      · rw [firstOccKeysAux, if_pos hk, ih seen]
        constructor
        · rintro ⟨h1, h2⟩; exact ⟨List.mem_cons_of_mem k h1, h2⟩
        · rintro ⟨h1, h2⟩
          rcases List.mem_cons.mp h1 with rfl | h1
          · exact absurd hk h2
          · exact ⟨h1, h2⟩
      · rw [firstOccKeysAux, if_neg hk]
        rw [List.mem_cons, ih (k :: seen)]
        constructor
        · rintro (rfl | ⟨h1, h2⟩)
          · exact ⟨List.mem_cons_self _ _, hk⟩
          · refine ⟨List.mem_cons_of_mem k h1, fun hc => h2 (List.mem_cons_of_mem k hc)⟩
        · rintro ⟨h1, h2⟩
          by_cases hak : a = k
          · exact Or.inl hak
          · rcases List.mem_cons.mp h1 with rfl | h1
            · exact Or.inl rfl
            · exact Or.inr ⟨h1, by simp [List.mem_cons, hak, h2]⟩

theorem mem_firstOccKeys (a : α) (l : List α) : a ∈ firstOccKeys l ↔ a ∈ l := by
  rw [firstOccKeys, mem_firstOccKeysAux]
  simp

theorem nodup_firstOccKeysAux :
    ∀ (l seen : List α), (firstOccKeysAux l seen).Nodup := by
  intro l
  induction l with
  | nil => intro seen; simp [firstOccKeysAux]
  | cons k ks ih =>
      intro seen
      by_cases hk : k ∈ seen
      · rw [firstOccKeysAux, if_pos hk]; exact ih seen
      · rw [firstOccKeysAux, if_neg hk]
        refine List.Nodup.cons ?_ (ih (k :: seen))
        intro hc
        exact ((mem_firstOccKeysAux k ks (k :: seen)).mp hc).2 (List.mem_cons_self _ _)

theorem nodup_firstOccKeys (l : List α) : (firstOccKeys l).Nodup :=
  nodup_firstOccKeysAux l []

theorem firstOccKeysAux_append_singleton (a : α) :
    ∀ (l seen : List α),
      firstOccKeysAux (l ++ [a]) seen =
        firstOccKeysAux l seen ++ (if a ∈ seen ∨ a ∈ l then [] else [a]) := by
  intro l
  induction l with
  | nil =>
      intro seen
      by_cases ha : a ∈ seen <;> simp [firstOccKeysAux, ha]
  | cons k ks ih =>
      intro seen
      by_cases hk : k ∈ seen
      · have hcond : (a ∈ seen ∨ a ∈ ks) ↔ (a ∈ seen ∨ a ∈ k :: ks) := by
          constructor
          · rintro (h | h)
            · exact Or.inl h
            · exact Or.inr (List.mem_cons_of_mem k h)
          · rintro (h | h)
            · exact Or.inl h
            · rcases List.mem_cons.mp h with rfl | h
              · exact Or.inl hk
              · exact Or.inr h
        rw [List.cons_append, firstOccKeysAux, if_pos hk, ih seen, firstOccKeysAux, if_pos hk,
          if_congr hcond rfl rfl]
      · have hcond : (a ∈ k :: seen ∨ a ∈ ks) ↔ (a ∈ seen ∨ a ∈ k :: ks) := by
          constructor
          · rintro (h | h)
            · rcases List.mem_cons.mp h with rfl | h
              · exact Or.inr (List.mem_cons_self _ _)
              · exact Or.inl h
            · exact Or.inr (List.mem_cons_of_mem k h)
          · rintro (h | h)
            · exact Or.inl (List.mem_cons_of_mem k h)
            · rcases List.mem_cons.mp h with rfl | h
              · exact Or.inl (List.mem_cons_self _ _)
              · exact Or.inr h
        rw [List.cons_append, firstOccKeysAux, if_neg hk, ih (k :: seen), firstOccKeysAux,
          if_neg hk, List.cons_append, if_congr hcond rfl rfl]

theorem firstOccKeys_append_singleton (a : α) (l : List α) :
    firstOccKeys (l ++ [a]) =
      firstOccKeys l ++ (if a ∈ l then [] else [a]) := by
  rw [firstOccKeys, firstOccKeys, firstOccKeysAux_append_singleton]
  simp

theorem length_firstOccKeys_eq_dedup (l : List α) :
    (firstOccKeys l).length = l.dedup.length := by
  refine Nat.le_antisymm ?_ ?_
  · refine List.Subperm.length_le (List.subperm_of_subset (nodup_firstOccKeys l) ?_)
    intro x hx
    exact List.mem_dedup.mpr ((mem_firstOccKeys x l).mp hx)
  · refine List.Subperm.length_le (List.subperm_of_subset (List.nodup_dedup l) ?_)
    intro x hx
    exact (mem_firstOccKeys x l).mpr (List.mem_dedup.mp hx)

end FirstOccKeys

theorem countP_eq_one_of_nodup_mem {α : Type} [DecidableEq α] {l : List α}
    (hnd : l.Nodup) {a : α} (ha : a ∈ l) :
    l.countP (fun x => decide (x = a)) = 1 := by
  induction l with
  | nil => cases ha
  | cons x xs ih =>
      rw [List.countP_cons]
      rcases List.mem_cons.mp ha with rfl | hmem
      · have hx : a ∉ xs := (List.nodup_cons.mp hnd).1
        have hz : xs.countP (fun y => decide (y = a)) = 0 := by
          rw [List.countP_eq_zero]
          intro y hy hc
          rw [decide_eq_true_iff] at hc
          exact hx (hc ▸ hy)
        simp [hz]
      · have hxa : ¬ (x = a) := by
          rintro rfl
          exact (List.nodup_cons.mp hnd).1 hmem
        rw [ih (List.nodup_cons.mp hnd).2 hmem]
        simp [hxa]

theorem pd_eq_iff {ts : List Template} (hpd : pairwiseDistinct ts) {x y : Template}
    (hx : x ∈ ts) (hy : y ∈ ts) : Template.eq x y = true ↔ x = y := by
  constructor
  · intro h
    by_contra hne
    have hsym : Symmetric (fun a b : Template => Template.eq a b = false) := by
      intro a b hab
      rw [Template.eq_symm]; exact hab
    have hfalse := hpd.forall hsym hx hy hne
    rw [h] at hfalse
    cases hfalse
  · rintro rfl
    exact Template.eq_refl x

theorem pd_nodup {ts : List Template} (hpd : pairwiseDistinct ts) : ts.Nodup := by
  refine hpd.imp ?_
  intro a b hab
  rintro rfl
  rw [Template.eq_refl] at hab
  cases hab

/-- When `m` is the first input template carrying its processing key,
its group is exactly the input filtered to that key (for fully distinct
inputs). -/
theorem mkGroup_eq_keyFilter {ts p rest : List Template} {m : Template}
    (hpd : pairwiseDistinct ts) (hsplit : ts = p ++ m :: rest)
    (hnin : procKey m ∉ p.map procKey) :
    mkGroup ts m = ts.filter (fun t => procKey t == procKey m) := by
  have hnodup : ts.Nodup := pd_nodup hpd
  have hmts : m ∈ ts := by
    rw [hsplit]
    exact List.mem_append_right _ (List.mem_cons_self _ _)
  have hmrest : m ∉ rest := by
    rw [hsplit] at hnodup
    exact (List.nodup_cons.mp hnodup.of_append_right).1
  have hpkeys : ∀ x ∈ p, procKey x ≠ procKey m := by
    intro x hx hc
    exact hnin (hc ▸ List.mem_map_of_mem procKey hx)
  have hrestL :
      rest.filter (fun s => m.same_processing s && !(Template.eq m s)) =
        rest.filter (fun t => procKey t == procKey m) := by
    refine List.filter_congr ?_
    intro s hs
    have hsts : s ∈ ts := by
      rw [hsplit]
      exact List.mem_append_right _ (List.mem_cons_of_mem m hs)
    have hsm : s ≠ m := fun hc => hmrest (hc ▸ hs)
    have heqms : Template.eq m s = false := by
      rw [← Bool.not_eq_true]
      intro hc
      exact hsm ((pd_eq_iff hpd hsts hmts).mp (by rw [Template.eq_symm]; exact hc))
    by_cases hks : procKey s = procKey m
    · rw [(Template.same_processing_true_iff m s).mpr hks.symm, heqms]
      simp [hks]
    · rw [(Template.same_processing_false_iff m s).mpr (fun hc => hks hc.symm)]
      simp [hks]
  rw [mkGroup, hsplit, List.filter_append, List.filter_append, List.filter_cons,
    List.filter_cons]
  have hp1 : p.filter (fun s => m.same_processing s && !(Template.eq m s)) = [] := by
    rw [List.filter_eq_nil_iff]
    intro x hx
    simp [(Template.same_processing_false_iff m x).mpr
      (fun hc => hpkeys x hx hc.symm)]
  have hp2 : p.filter (fun t => procKey t == procKey m) = [] := by
    rw [List.filter_eq_nil_iff]
    intro x hx
    simp [hpkeys x hx]
  rw [hp1, hp2]
  simp only [Template.same_processing_refl, Template.eq_refl, Bool.not_true, Bool.and_false,
    Bool.false_eq_true, if_false, beq_self_eq_true, if_true, List.nil_append]
  rw [hrestL]

/-- The grouping loop on fully distinct input: the accumulated groups
are determined by the keys of the already-visited prefix, and the final
result maps each first-encountered key to the key-filtered input. -/
theorem groupLoop_nodup_normal {ts : List Template} (hpd : pairwiseDistinct ts) :
    ∀ (ms p : List Template) (acc : List (List Template)),
      ts = p ++ ms →
      acc = (firstOccKeys (p.map procKey)).map
        (fun k => ts.filter (fun t => procKey t == k)) →
      groupLoop ts ms acc =
        (firstOccKeys (ts.map procKey)).map
          (fun k => ts.filter (fun t => procKey t == k)) := by
  intro ms
  induction ms with
  | nil =>
      intro p acc hsplit hacc
      rw [groupLoop, hacc, hsplit, List.append_nil]
  | cons m rest ih =>
      intro p acc hsplit hacc
      have hmts : m ∈ ts := by
        rw [hsplit]
        exact List.mem_append_right _ (List.mem_cons_self _ _)
      have hsplit' : ts = (p ++ [m]) ++ rest := by
        rw [hsplit, List.append_assoc, List.singleton_append]
      have hskip_iff :
          (acc.any (fun g => inGroup g m)) = true ↔ procKey m ∈ p.map procKey := by
        rw [hacc, List.any_eq_true]
        constructor
        · rintro ⟨g, hgmem, hik⟩
          obtain ⟨k, hk, rfl⟩ := List.mem_map.mp hgmem
          rw [inGroup, List.any_eq_true] at hik
          obtain ⟨x, hxmem, hxeq⟩ := hik
          have hx_ts : x ∈ ts := (List.mem_filter.mp hxmem).1
          have hxm : x = m := (pd_eq_iff hpd hx_ts hmts).mp hxeq
          subst hxm
          have hkx : (procKey x == k) = true := (List.mem_filter.mp hxmem).2
          rw [beq_iff_eq] at hkx
          rw [hkx]
          exact (mem_firstOccKeys k _).mp hk
        · intro hin
          refine ⟨ts.filter (fun t => procKey t == procKey m),
            List.mem_map_of_mem _ ((mem_firstOccKeys _ _).mpr hin), ?_⟩
          rw [inGroup, List.any_eq_true]
          exact ⟨m, List.mem_filter.mpr ⟨hmts, by simp⟩, Template.eq_refl m⟩
      by_cases hin : procKey m ∈ p.map procKey
      · rw [groupLoop, if_pos (hskip_iff.mpr hin)]
        refine ih (p ++ [m]) acc hsplit' ?_
        rw [hacc, List.map_append, List.map_singleton, firstOccKeys_append_singleton,
          if_pos hin, List.append_nil]
      · rw [groupLoop, if_neg (by rw [hskip_iff]; exact hin)]
        refine ih (p ++ [m]) _ hsplit' ?_
        rw [hacc, List.map_append, List.map_singleton, firstOccKeys_append_singleton,
          if_neg hin, List.map_append, List.map_singleton,
          mkGroup_eq_keyFilter hpd hsplit hin]

/-- Claim C1's core: on fully distinct input, `group_templates` maps the
first-encountered processing keys, in encounter order, to the
key-filtered input (so each group lists its class in input order with
the first-encountered member — the master — first). -/
theorem group_templates_normal {ts : List Template} (hpd : pairwiseDistinct ts) :
    group_templates ts =
      (firstOccKeys (ts.map procKey)).map
        (fun k => ts.filter (fun t => procKey t == k)) := by
  rw [group_templates, groupLoop_nodup_normal hpd ts [] [] rfl rfl]
  rw [List.filter_eq_self]
  intro g hg
  obtain ⟨k, hk, rfl⟩ := List.mem_map.mp hg
  obtain ⟨t, ht, hkt⟩ := List.mem_map.mp ((mem_firstOccKeys k _).mp hk)
  have : t ∈ ts.filter (fun t => procKey t == k) :=
    List.mem_filter.mpr ⟨ht, by rw [hkt]; simp⟩
  have hne := List.ne_nil_of_mem this
  cases hg2 : ts.filter (fun t => procKey t == k) with
  | nil => exact absurd hg2 hne
  | cons x xs => rfl

/-! Concrete fixtures used by witnesses and counterexamples. -/

def exStats0 : TraceStats := ⟨"NZ", "AAA", "10", "EHZ", 0, 10, 100, 1, 1000, 1⟩

def exStats1 : TraceStats := ⟨"NZ", "BBB", "10", "EHZ", 0, 10, 100, 1, 1000, 1⟩

def exTr0 : Trace := ⟨exStats0, [1, 2, 3]⟩

def exTr1 : Trace := ⟨exStats1, [4, 5, 6]⟩

def exA : Template :=
  ⟨some "a", .stream [exTr0], some 2, some 8, some 100, some 4, some 3600, some 1, Option.none⟩

def exB : Template :=
  ⟨some "b", .stream [exTr1], some 2, some 8, some 100, some 4, some 3600, some 1, Option.none⟩

def exC : Template :=
  ⟨some "c", .stream [exTr0], some 2, some 10, some 100, some 4, some 3600, some 1, Option.none⟩

def exTrace : Template :=
  ⟨some "a", .trace exTr0, some 2, some 8, some 100, some 4, some 3600, some 1, Option.none⟩

def exNone : Template :=
  ⟨some "a", .none, some 2, some 8, some 100, some 4, some 3600, some 1, Option.none⟩

def exEmpty : Template :=
  ⟨some "a", .stream [], some 2, some 8, some 100, some 4, some 3600, some 1, Option.none⟩

def exOne : Template :=
  ⟨some "a", .stream [exTr0], some 2, some 8, some 100, some 4, some 3600, some 1, Option.none⟩

def exOneB : Template :=
  ⟨some "a", .stream [exTr1], some 2, some 8, some 100, some 4, some 3600, some 1, Option.none⟩

def exTwo : Template :=
  ⟨some "a", .stream [exTr0, exTr1], some 2, some 8, some 100, some 4, some 3600, some 1, Option.none⟩

def exEvent : Event := ⟨7, [], [1, 2]⟩

/-- Claim C2 (corrected): when one template's waveform is a `Trace` and
the other's is a `Stream` (in particular an empty `Stream`), equality
returns `false`; but when the other's waveform is absent (`None`),
neither side is a `Stream`, the attribute is skipped entirely, and
equality returns `true` whenever all other attributes agree.  No
exception is raised in either case (the embedded comparator is total). -/
theorem claim_C2_trace_vs_absent :
    (∀ (a b : Template) (tr : Trace) (l : List Trace),
      a.st = .trace tr → b.st = .stream l → Template.eq a b = false) ∧
    (∀ (a b : Template) (tr : Trace),
      a.st = .trace tr → b.st = .none →
      a.name = b.name → a.lowcut = b.lowcut → a.highcut = b.highcut →
      a.samp_rate = b.samp_rate → a.filt_order = b.filt_order →
      a.process_length = b.process_length → a.prepick = b.prepick →
      a.event = b.event → Template.eq a b = true) := by
  constructor
  · intro a b tr l ha hb
    simp [Template.eq, ha, hb, Template.stField]
  · intro a b tr ha hb h1 h2 h3 h4 h5 h6 h7 h8
    simp [Template.eq, ha, hb, Template.stField, h1, h2, h3, h4, h5, h6, h7, h8,
      Template.eventField_refl]

theorem claim_C2_trace_vs_absent_witness :
    Template.eq exTrace exEmpty = false ∧ Template.eq exTrace exNone = true :=
  ⟨claim_C2_trace_vs_absent.1 exTrace exEmpty exTr0 [] rfl rfl,
   claim_C2_trace_vs_absent.2 exTrace exNone exTr0 rfl rfl rfl rfl rfl rfl rfl rfl rfl rfl⟩

/-- Claim C2's original statement is false on the code: a template whose
waveform is a single `Trace` compares **equal** (not unequal) to one
whose waveform is `None`, because `__eq__` skips the `st` attribute when
neither side is a `Stream`. -/
theorem claim_C2_counterexample :
    exTrace.st = Waveform.trace exTr0 ∧ exNone.st = Waveform.none ∧
    exTrace.name = exNone.name ∧ exTrace.lowcut = exNone.lowcut ∧
    exTrace.highcut = exNone.highcut ∧ exTrace.samp_rate = exNone.samp_rate ∧
    exTrace.filt_order = exNone.filt_order ∧
    exTrace.process_length = exNone.process_length ∧
    exTrace.prepick = exNone.prepick ∧ exTrace.event = exNone.event ∧
    Template.eq exTrace exNone = true := by
  refine ⟨rfl, rfl, rfl, rfl, rfl, rfl, rfl, rfl, rfl, rfl, ?_⟩
  decide

/-- Claim C3: `same_processing` is unaffected by changing `name`, `st`,
`prepick` or `event` on a copy, and becomes false when any one of
`lowcut`, `highcut`, `samp_rate`, `filt_order`, `process_length` is
changed to a different value. -/
theorem claim_C3_same_processing_fields :
    (∀ (t : Template) (nm : Option String) (w : Waveform) (pp : Option ℚ) (ev : Option Event),
      Template.same_processing t { t with name := nm, st := w, prepick := pp, event := ev } = true) ∧
    (∀ (t : Template) (v : Option ℚ), v ≠ t.lowcut →
      Template.same_processing t { t with lowcut := v } = false) ∧
    (∀ (t : Template) (v : Option ℚ), v ≠ t.highcut →
      Template.same_processing t { t with highcut := v } = false) ∧
    (∀ (t : Template) (v : Option ℚ), v ≠ t.samp_rate →
      Template.same_processing t { t with samp_rate := v } = false) ∧
    (∀ (t : Template) (v : Option ℤ), v ≠ t.filt_order →
      Template.same_processing t { t with filt_order := v } = false) ∧
    (∀ (t : Template) (v : Option ℚ), v ≠ t.process_length →
      Template.same_processing t { t with process_length := v } = false) := by
  refine ⟨?_, ?_, ?_, ?_, ?_, ?_⟩
  · intro t nm w pp ev
    simp [Template.same_processing]
  all_goals
    intro t v h
    simp [Template.same_processing, beq_eq_false_iff_ne.mpr (Ne.symm h)]

theorem claim_C3_same_processing_fields_witness :
    Template.same_processing exA
      { exA with name := some "z", st := .none, prepick := some 9, event := some exEvent } = true ∧
    Template.same_processing exA { exA with lowcut := some 5 } = false ∧
    Template.same_processing exA { exA with highcut := some 5 } = false ∧
    Template.same_processing exA { exA with samp_rate := some 50 } = false ∧
    Template.same_processing exA { exA with filt_order := some 2 } = false ∧
    Template.same_processing exA { exA with process_length := some 5 } = false :=
  ⟨claim_C3_same_processing_fields.1 exA (some "z") .none (some 9) (some exEvent),
   claim_C3_same_processing_fields.2.1 exA (some 5) (by decide),
   claim_C3_same_processing_fields.2.2.1 exA (some 5) (by decide),
   claim_C3_same_processing_fields.2.2.2.1 exA (some 50) (by decide),
   claim_C3_same_processing_fields.2.2.2.2.1 exA (some 2) (by decide),
   claim_C3_same_processing_fields.2.2.2.2.2 exA (some 5) (by decide)⟩

/-- Claim C6 (corrected): `__eq__` compares the two sorted streams only
pairwise up to the length of the shorter one (`zip` semantics).  A
differing pair within the common length makes equality `false`, but an
extra channel that sorts after all of the shorter stream's channels is
simply ignored, and equality returns `true` when everything compared
agrees — even though the channel counts differ. -/
theorem claim_C6_zip_truncation :
    (∀ (a b : Template) (xs ys : List Trace),
      a.st = .stream xs → b.st = .stream ys →
      streamsMatch (sortStream xs) (sortStream ys) = false → Template.eq a b = false) ∧
    (∀ (xs extra : List Trace), streamsMatch xs (xs ++ extra) = true) ∧
    (∀ (a b : Template) (xs ys extra : List Trace),
      a.st = .stream xs → b.st = .stream ys →
      sortStream ys = sortStream xs ++ extra →
      a.name = b.name → a.lowcut = b.lowcut → a.highcut = b.highcut →
      a.samp_rate = b.samp_rate → a.filt_order = b.filt_order →
      a.process_length = b.process_length → a.prepick = b.prepick →
      a.event = b.event → Template.eq a b = true) := by
  have hpref : ∀ (xs extra : List Trace), streamsMatch xs (xs ++ extra) = true := by
    intro xs
    induction xs with
    | nil => intro extra; cases extra <;> rfl
    | cons x xs ih =>
        intro extra
        simp [streamsMatch, tracesMatch_refl, ih extra]
  refine ⟨?_, hpref, ?_⟩
  · intro a b xs ys ha hb hmatch
    simp [Template.eq, ha, hb, Template.stField, hmatch]
  · intro a b xs ys extra ha hb hsort h1 h2 h3 h4 h5 h6 h7 h8
    simp [Template.eq, ha, hb, Template.stField, hsort, hpref (sortStream xs) extra,
      h1, h2, h3, h4, h5, h6, h7, h8, Template.eventField_refl]

theorem claim_C6_zip_truncation_witness :
    Template.eq exOne exOneB = false ∧ Template.eq exOne exTwo = true :=
  ⟨claim_C6_zip_truncation.1 exOne exOneB [exTr0] [exTr1] rfl rfl (by decide),
   claim_C6_zip_truncation.2.2 exOne exTwo [exTr0] [exTr0, exTr1] [exTr1] rfl rfl (by decide)
     rfl rfl rfl rfl rfl rfl rfl rfl⟩

/-- Claim C6's original statement is false on the code: `exTwo`'s stream
is `exOne`'s stream plus one extra channel (which sorts last), the
channel counts differ, yet equality returns `true` because the `zip`
never reaches the extra channel. -/
theorem claim_C6_counterexample :
    exOne.st = Waveform.stream [exTr0] ∧ exTwo.st = Waveform.stream [exTr0, exTr1] ∧
    exTr0 ≠ exTr1 ∧ Template.eq exOne exTwo = true := by
  refine ⟨rfl, rfl, by decide, by decide⟩

theorem marker_contains_iff (name : Option String) (ev : Event) :
    ((ev.comments.map Comment.text).contains (markerText name)) = true ↔
      0 < ev.comments.countP (fun c => c.text == markerText name) := by
  rw [List.contains, List.elem_iff]
  constructor
  · intro h
    obtain ⟨c, hc, htext⟩ := List.mem_map.mp h
    rw [List.countP_pos_iff]
    exact ⟨c, hc, by rw [htext]; simp⟩
  · intro h
    obtain ⟨c, hc, hp⟩ := List.countP_pos_iff.mp h
    rw [beq_iff_eq] at hp
    exact List.mem_map.mpr ⟨c, hc, hp⟩

theorem attachMarker_of_pos {name : Option String} (user : String) {ev : Event}
    (h : 0 < ev.comments.countP (fun c => c.text == markerText name)) :
    attachMarker name user ev = ev := by
  rw [attachMarker, if_pos ((marker_contains_iff name ev).mpr h)]

/-- Claim C4: attaching the provenance marker is idempotent — a second
construction around the same event (under the same name, by any user)
appends nothing — and starting from an event without the marker, any
positive number of constructions leaves exactly one marker comment. -/
theorem claim_C4_marker_idempotent :
    (∀ (name : Option String) (u1 u2 : String) (ev : Event),
      attachMarker name u2 (attachMarker name u1 ev) = attachMarker name u1 ev) ∧
    (∀ (name : Option String) (user : String) (ev : Event),
      ev.comments.countP (fun c => c.text == markerText name) = 0 →
      ∀ n : ℕ,
        (attachIter name user (n + 1) ev).comments.countP
          (fun c => c.text == markerText name) = 1) := by
  constructor
  · intro name u1 u2 ev
    by_cases hp : ((ev.comments.map Comment.text).contains (markerText name)) = true
    · have h1 : attachMarker name u1 ev = ev := by rw [attachMarker, if_pos hp]
      rw [h1, attachMarker, if_pos hp]
    · have h1 : attachMarker name u1 ev =
          { ev with comments := ev.comments ++ [⟨markerText name, ⟨"eqcorrscan", u1⟩⟩] } := by
        rw [attachMarker, if_neg hp]
      rw [h1]
      apply attachMarker_of_pos
      rw [List.countP_append]
      simp
  · intro name user ev h0 n
    induction n with
    | zero =>
        have hp : ¬ ((ev.comments.map Comment.text).contains (markerText name)) = true := by
          intro hc
          have := (marker_contains_iff name ev).mp hc
          omega
        rw [attachIter, attachIter, attachMarker, if_neg hp]
        simp [List.countP_append, h0]
    | succ n ih =>
        rw [attachIter,
          attachMarker_of_pos user (by rw [ih]; exact Nat.zero_lt_one)]
        exact ih

theorem claim_C4_marker_idempotent_witness :
    attachMarker (some "a") "usr" (attachMarker (some "a") "usr" exEvent) =
        attachMarker (some "a") "usr" exEvent ∧
    exEvent.comments.countP (fun c => c.text == markerText (some "a")) = 0 ∧
    (attachIter (some "a") "usr" 3 exEvent).comments.countP
      (fun c => c.text == markerText (some "a")) = 1 :=
  ⟨claim_C4_marker_idempotent.1 (some "a") "usr" "usr" exEvent, by decide,
   claim_C4_marker_idempotent.2 (some "a") "usr" exEvent (by decide) 2⟩

/-- Claim C10: successful construction stores in the template the very
event value the caller's event object holds after the call (the source
mutates the caller's event in place; here the post-call caller state is
the second component of the result). When the marker is absent it is
appended to the caller's comment list; an unset name yields the
placeholder marker text `eqcorrscan_template_unnamed`; all other event
fields are unchanged by the attachment. -/
theorem claim_C10_event_in_place :
    ∀ (name : Option String) (st : Waveform) (lowcut highcut samp_rate : Option ℚ)
      (filt_order : Option ℤ) (process_length prepick : Option ℚ) (ev : Event)
      (user : String) (t : Template) (ev' : Option Event),
      Template.init name st lowcut highcut samp_rate filt_order process_length prepick
        (some ev) user = .ok (t, ev') →
      ev' = some (attachMarker name user ev) ∧
      t.event = ev' ∧
      (ev.comments.countP (fun c => c.text == markerText name) = 0 →
        (attachMarker name user ev).comments =
          ev.comments ++ [⟨markerText name, ⟨"eqcorrscan", user⟩⟩]) ∧
      (attachMarker name user ev).resource_id = ev.resource_id ∧
      (attachMarker name user ev).content = ev.content ∧
      markerText Option.none = "eqcorrscan_template_unnamed" := by
  intro name st lc hc sr fo pl pp ev user t ev' h
  rw [Template.init] at h
  by_cases h1 : (Option.any (fun s => !validName s) name) = true
  · rw [if_pos h1] at h
    exact absurd h (by simp)
  · rw [if_neg h1] at h
    by_cases h2 : sampleRateMismatch st sr = true
    · rw [if_pos h2] at h
      exact absurd h (by simp)
    · rw [if_neg h2] at h
      rw [Except.ok.injEq, Prod.mk.injEq] at h
      obtain ⟨ht, hev⟩ := h
      refine ⟨?_, ?_, ?_, ?_, ?_, by decide⟩
      · rw [← hev]; rfl
      · rw [← ht, ← hev]
      · intro h0
        have hp : ¬ ((ev.comments.map Comment.text).contains (markerText name)) = true := by
          intro hcon
          have := (marker_contains_iff name ev).mp hcon
          omega
        rw [attachMarker, if_neg hp]
      · rw [attachMarker]
        split <;> rfl
      · rw [attachMarker]
        split <;> rfl

theorem claim_C10_event_in_place_witness :
    (some (attachMarker (some "a") "usr" exEvent) : Option Event) =
        some (attachMarker (some "a") "usr" exEvent) ∧
    (Template.mk (some "a") .none Option.none Option.none Option.none Option.none Option.none
        Option.none (some (attachMarker (some "a") "usr" exEvent))).event =
      some (attachMarker (some "a") "usr" exEvent) ∧
    (exEvent.comments.countP (fun c => c.text == markerText (some "a")) = 0 →
      (attachMarker (some "a") "usr" exEvent).comments =
        exEvent.comments ++ [⟨markerText (some "a"), ⟨"eqcorrscan", "usr"⟩⟩]) ∧
    (attachMarker (some "a") "usr" exEvent).resource_id = exEvent.resource_id ∧
    (attachMarker (some "a") "usr" exEvent).content = exEvent.content ∧
    markerText Option.none = "eqcorrscan_template_unnamed" :=
  claim_C10_event_in_place (some "a") .none Option.none Option.none Option.none Option.none
    Option.none Option.none exEvent "usr"
    (Template.mk (some "a") .none Option.none Option.none Option.none Option.none Option.none
      Option.none (some (attachMarker (some "a") "usr" exEvent)))
    (some (attachMarker (some "a") "usr" exEvent)) rfl

/-- Claim C5 (corrected): direct construction validates a set name
against `^[-A-Za-z_0-9]+$` and raises the invalid-identifier error for
every failing name, and never raises that error for a conforming or
unset name; but `Template.construct` stores the caller-supplied name
without any validation and never raises an invalid-identifier error. -/
theorem claim_C5_name_validation :
    (∀ (s : String) (st : Waveform) (lowcut highcut samp_rate : Option ℚ)
      (filt_order : Option ℤ) (process_length prepick : Option ℚ)
      (event : Option Event) (user : String),
      validName s = false →
      Template.init (some s) st lowcut highcut samp_rate filt_order process_length prepick
        event user = .error .invalidName) ∧
    (∀ (name : Option String) (st : Waveform) (lowcut highcut samp_rate : Option ℚ)
      (filt_order : Option ℤ) (process_length prepick : Option ℚ)
      (event : Option Event) (user : String),
      (∀ s, name = some s → validName s = true) →
      Template.init name st lowcut highcut samp_rate filt_order process_length prepick
        event user ≠ .error .invalidName) ∧
    (∀ (t : Template) (method name : String) (lowcut highcut samp_rate : Option ℚ)
      (filt_order : Option ℤ) (prepick : Option ℚ) (genSt : List Trace)
      (genEvent : Event) (genProcLen : ℚ),
      unsupportedMethods.contains method = false →
      (Template.construct t method name lowcut highcut samp_rate filt_order prepick
        genSt genEvent genProcLen).map Template.name = .ok (some name)) := by
  refine ⟨?_, ?_, ?_⟩
  · intro s st lc hc sr fo pl pp event user h
    rw [Template.init, if_pos (by simp [Option.any, h])]
  · intro name st lc hc sr fo pl pp event user h
    rw [Template.init]
    have hcond : ¬ (name.any (fun s => !validName s)) = true := by
      cases name with
      | none => simp [Option.any]
      | some s => simp [Option.any, h s rfl]
    rw [if_neg hcond]
    by_cases h2 : sampleRateMismatch st sr = true
    · rw [if_pos h2]
      intro hcc
      exact absurd (Except.error.inj hcc) (by decide)
    · rw [if_neg h2]
      simp
  · intro t method name lc hc sr fo pp genSt genEvent genProcLen h
    rw [Template.construct, if_neg (by rw [h]; exact Bool.false_ne_true)]
    rfl

theorem claim_C5_name_validation_witness :
    Template.init (some "bad name") .none Option.none Option.none Option.none Option.none
        Option.none Option.none Option.none "usr" = .error .invalidName ∧
    Template.init (some "good-name_9") .none Option.none Option.none Option.none Option.none
        Option.none Option.none Option.none "usr" ≠ .error .invalidName ∧
    (Template.construct exNone "from_sac" "bad name" Option.none Option.none Option.none
      Option.none Option.none [exTr0] exEvent 300).map Template.name = .ok (some "bad name") :=
  ⟨claim_C5_name_validation.1 "bad name" .none Option.none Option.none Option.none Option.none
      Option.none Option.none Option.none "usr" (by decide),
   claim_C5_name_validation.2.1 (some "good-name_9") .none Option.none Option.none Option.none
      Option.none Option.none Option.none Option.none "usr"
      (by intro s hs; cases hs; decide),
   claim_C5_name_validation.2.2 exNone "from_sac" "bad name" Option.none Option.none Option.none
      Option.none Option.none [exTr0] exEvent 300 (by decide)⟩

/-- Claim C5's original statement is false on the code:
`Template.construct` accepts a name that fails the identifier regex and
returns a usable template carrying it, raising no error. -/
theorem claim_C5_counterexample :
    validName "bad name" = false ∧
    (Template.construct exNone "from_sac" "bad name" Option.none Option.none Option.none
      Option.none Option.none [exTr0] exEvent 300).map Template.name = .ok (some "bad name") :=
  ⟨by decide, rfl⟩

/-- Claim C1: on a fully distinct input whose processing parameters
take K equivalence classes, `group_templates` returns exactly K
non-empty groups (K = number of distinct processing keys), every group
member comes from the input, every input template lies in exactly one
group, members of one group are pairwise `same_processing`-equal, members
of different groups never are, and the normal form (first conjunct) shows
the ordering: groups follow the first-encounter order of their master's
key and each group lists its class in input order, master first; the
empty input yields the empty outer list. -/
theorem claim_C1_grouping_partition (ts : List Template) (hpd : pairwiseDistinct ts) :
    (group_templates ts =
      (firstOccKeys (ts.map procKey)).map (fun k => ts.filter (fun t => procKey t == k))) ∧
    (group_templates ts).length = ((ts.map procKey).dedup).length ∧
    (∀ g ∈ group_templates ts, g ≠ []) ∧
    (∀ g ∈ group_templates ts, ∀ x ∈ g, x ∈ ts) ∧
    (∀ t ∈ ts, ((group_templates ts).countP (fun g => decide (t ∈ g))) = 1) ∧
    (∀ g ∈ group_templates ts, ∀ a ∈ g, ∀ b ∈ g, a.same_processing b = true) ∧
    (∀ (i j : ℕ) (hi : i < (group_templates ts).length)
      (hj : j < (group_templates ts).length), i ≠ j →
      ∀ a ∈ (group_templates ts).get ⟨i, hi⟩, ∀ b ∈ (group_templates ts).get ⟨j, hj⟩,
        a.same_processing b = false) ∧
    group_templates ([] : List Template) = [] := by
  have hNF := group_templates_normal hpd
  refine ⟨hNF, ?_, ?_, ?_, ?_, ?_, ?_, rfl⟩
  · rw [hNF, List.length_map, length_firstOccKeys_eq_dedup]
  · intro g hg
    rw [hNF] at hg
    obtain ⟨k, hk, rfl⟩ := List.mem_map.mp hg
    obtain ⟨t, ht, hkt⟩ := List.mem_map.mp ((mem_firstOccKeys k _).mp hk)
    exact List.ne_nil_of_mem (List.mem_filter.mpr ⟨ht, by rw [hkt]; simp⟩)
  · intro g hg x hx
    rw [hNF] at hg
    obtain ⟨k, hk, rfl⟩ := List.mem_map.mp hg
    exact (List.mem_filter.mp hx).1
  · intro t ht
    rw [hNF, List.countP_map]
    have hcong :
        ((firstOccKeys (ts.map procKey)).countP
          ((fun g => decide (t ∈ g)) ∘ (fun k => ts.filter (fun t => procKey t == k)))) =
        ((firstOccKeys (ts.map procKey)).countP (fun k => decide (k = procKey t))) := by
      refine List.countP_congr ?_
      intro k hk
      simp only [Function.comp, decide_eq_true_iff, List.mem_filter, beq_iff_eq]
      constructor
      · rintro ⟨_, hkt⟩
        exact hkt.symm
      · intro hkt
        exact ⟨ht, hkt.symm⟩
    rw [hcong]
    exact countP_eq_one_of_nodup_mem (nodup_firstOccKeys _)
      ((mem_firstOccKeys _ _).mpr (List.mem_map_of_mem procKey ht))
  · intro g hg a ha b hb
    rw [hNF] at hg
    obtain ⟨k, hk, rfl⟩ := List.mem_map.mp hg
    have h1 := (List.mem_filter.mp ha).2
    have h2 := (List.mem_filter.mp hb).2
    rw [beq_iff_eq] at h1 h2
    exact (Template.same_processing_true_iff a b).mpr (h1.trans h2.symm)
  · intro i j hi hj hij a ha b hb
    have hlen : (group_templates ts).length = (firstOccKeys (ts.map procKey)).length := by
      rw [hNF, List.length_map]
    have hi' : i < (firstOccKeys (ts.map procKey)).length := hlen ▸ hi
    have hj' : j < (firstOccKeys (ts.map procKey)).length := hlen ▸ hj
    have hgi : (group_templates ts).get ⟨i, hi⟩ =
        ts.filter (fun t => procKey t == (firstOccKeys (ts.map procKey)).get ⟨i, hi'⟩) := by
      rw [List.get_of_eq hNF ⟨i, hi⟩, List.get_map]
    have hgj : (group_templates ts).get ⟨j, hj⟩ =
        ts.filter (fun t => procKey t == (firstOccKeys (ts.map procKey)).get ⟨j, hj'⟩) := by
      rw [List.get_of_eq hNF ⟨j, hj⟩, List.get_map]
    rw [hgi] at ha
    rw [hgj] at hb
    have h1 := (List.mem_filter.mp ha).2
    have h2 := (List.mem_filter.mp hb).2
    rw [beq_iff_eq] at h1 h2
    refine (Template.same_processing_false_iff a b).mpr ?_
    rw [h1, h2]
    intro hc
    have hnd := nodup_firstOccKeys (ts.map procKey)
    rw [List.Nodup.get_inj_iff hnd] at hc
    exact hij (congrArg Fin.val hc)

theorem claim_C1_grouping_partition_witness :
    pairwiseDistinct [exA, exB, exC] ∧
    group_templates [exA, exB, exC] = [[exA, exB], [exC]] ∧
    (group_templates [exA, exB, exC]).length = (([exA, exB, exC].map procKey).dedup).length :=
  ⟨by decide, by decide, (claim_C1_grouping_partition [exA, exB, exC] (by decide)).2.1⟩

/-- Claim C8: grouping is idempotent on its own output — regrouping the
concatenation of all groups of a prior call reproduces exactly the same
group list (so in particular the same partition), for every input
collection. -/
theorem claim_C8_grouping_idempotent (ts : List Template) :
    group_templates ((group_templates ts).flatten) = group_templates ts :=
  group_templates_idem ts

/-- Claim C9 (corrected): a later duplicate of a group **master** is
excluded from the master's group by the `master != slave` test and is
skipped as a master, so it appears in no output group and the output is
then not a partition of the input; but a later duplicate of a
**non-master** group member is appended to that group like any other
slave and does appear. -/
theorem claim_C9_duplicate_handling :
    (∀ a d : Template, Template.eq a d = true → group_templates [a, d] = [[a]]) ∧
    (∀ a b d : Template,
      Template.eq b d = true → Template.eq a b = false → Template.eq a d = false →
      a.same_processing b = true → group_templates [a, b, d] = [[a, b, d]]) := by
  constructor
  · intro a d h
    have hsp : a.same_processing d = true :=
      (Template.same_processing_true_iff a d).mpr (Template.eq_implies_procKey h)
    simp [group_templates, groupLoop, mkGroup, inGroup, h, hsp, Template.eq_refl,
      Template.same_processing_refl]
  · intro a b d hbd hab had hsp
    have hspd : a.same_processing d = true := by
      rw [Template.same_processing_true_iff,
        (Template.same_processing_true_iff a b).mp hsp]
      exact Template.eq_implies_procKey hbd
    simp [group_templates, groupLoop, mkGroup, inGroup, hbd, hab, had, hsp, hspd,
      Template.eq_refl, Template.same_processing_refl]

theorem claim_C9_duplicate_handling_witness :
    group_templates [exB, exB] = [[exB]] ∧
    group_templates [exA, exB, exB] = [[exA, exB, exB]] :=
  ⟨claim_C9_duplicate_handling.1 exB exB (by decide),
   claim_C9_duplicate_handling.2 exA exB exB (by decide) (by decide) (by decide) (by decide)⟩

/-- Claim C9's original universal statement is false on the code: here
the input holds two fully-equal templates (`exB` twice), yet the later
duplicate does appear in an output group — it is appended as a slave of
master `exA` — and the flattened output equals the input, which is a
partition. -/
theorem claim_C9_counterexample :
    Template.eq exB exB = true ∧
    group_templates [exA, exB, exB] = [[exA, exB, exB]] := by
  constructor
  · decide
  · decide

/-- Claim C7: equality holds between a template and its (deep) copy,
equality and `same_processing` are symmetric and reflexive, and both are
total functions on well-formed records (they are defined by structural
recursion and return `Bool`, never raising). -/
theorem claim_C7_reflexive_symmetric :
    (∀ t : Template, Template.eq t t.copy = true) ∧
    (∀ a b : Template, Template.eq a b = Template.eq b a) ∧
    (∀ a b : Template, a.same_processing b = b.same_processing a) ∧
    (∀ t : Template, Template.eq t t = true) ∧
    (∀ t : Template, t.same_processing t = true) :=
  ⟨fun t => Template.eq_refl t, Template.eq_symm, Template.same_processing_symm,
   Template.eq_refl, Template.same_processing_refl⟩

end EqcorrscanTemplate
